import Mathlib

/-!
Verification of the tinydxt single-channel block codec (src/main.rs).

The Rust code is shallowly embedded: byte buffers become `List Nat` whose
elements are < 256, `u32` arithmetic is `Nat` arithmetic with explicit
`% 2^w` where a narrowing cast occurs, `i32` residuals become `Int`, and
operations that can panic (slice indexing out of range) return `Option`.
-/

set_option linter.unusedVariables false

namespace TinyDxt

/-- Maximum of a list of naturals; models `block.iter().max().unwrap()` on a
nonempty slice (the `[]` case models the unreachable panic). -/
def list_max : List Nat → Nat
  | [] => 0
  | x :: xs => xs.foldl Nat.max x

/-- Minimum of a list of naturals; models `block.iter().min().unwrap()`. -/
def list_min : List Nat → Nat
  | [] => 0
  | x :: xs => xs.foldl Nat.min x

/-- Embeds `get_options_table(val0, val1, flip)`.  The `u32` intermediate sums
cannot overflow, and each `as u8` narrowing cast is modelled by `% 256`. -/
def get_options_table (val0 val1 : Nat) (flip : Bool) : List Nat :=
  [val0, val1, ((2 * val0 + val1) / 3) % 256, ((val0 + 2 * val1) / 3) % 256,
   if flip then val0 else val1, if flip then val1 else val0,
   ((val0 + val1) / 2) % 256, 0]

/-- Embeds `choose_codeword(decreasing_order, residuals)`: a linear scan over
four residuals starting at offset 0 or 4, keeping the first strict improvement
over the running best (initialised to 99999). -/
def choose_codeword (decreasing_order : Bool) (residuals : List Int) : Nat :=
  let start_i := if decreasing_order then 0 else 4
  let best := (List.range 4).foldl
    (fun acc i =>
      if residuals.getD (start_i + i) 0 < acc.2 then (i, residuals.getD (start_i + i) 0)
      else acc)
    ((0, 99999) : Nat × Int)
  best.1

/-- One row of the residual table: `|val - option|` for the 8 palette options,
as stored at `residuals[i*8 .. (i+1)*8]` for pixel `i` in `compress_block`. -/
def residual_row (options : List Nat) (val : Nat) : List Int :=
  options.map (fun (o : Nat) => |(val : Int) - ((o : Nat) : Int)|)

/-- `total_residuals[j]`: the accumulated residual of palette option `j` over
the whole block, as built by the accumulation loop in `compress_block`. -/
def total_residuals (block options : List Nat) (j : Nat) : Int :=
  (block.map (fun v => (residual_row options v).getD j 0)).sum

/-- The codeword-packing loop of `compress_block`:
`codes |= choose_codeword(..) << (2*i)` for `i` in `0..16`, from `codes = 0`. -/
def pack_codes (cw : Nat → Nat) : Nat :=
  (List.range 16).foldl (fun acc i => acc ||| (cw i <<< (2 * i))) 0

/-- The packing loop truncated to its first `n` iterations. -/
def pack_upto (cw : Nat → Nat) (n : Nat) : Nat :=
  (List.range n).foldl (fun acc i => acc ||| (cw i <<< (2 * i))) 0

/-- The `options` table of `compress_block`: palette from `(max, min, false)`. -/
def block_options (block : List Nat) : List Nat :=
  get_options_table (list_max block) (list_min block) false

/-- The `decreasing_order` flag of `compress_block`. -/
def block_decreasing (block : List Nat) : Bool :=
  decide (total_residuals block (block_options block) 2 +
            total_residuals block (block_options block) 3 <
          total_residuals block (block_options block) 6 +
            total_residuals block (block_options block) 7)

/-- The codeword chosen for pixel `i` in `compress_block`:
`choose_codeword(decreasing_order, &residuals[i*8 .. (i+1)*8])`. -/
def block_codeword (block : List Nat) (i : Nat) : Nat :=
  choose_codeword (block_decreasing block) (residual_row (block_options block) (block.getD i 0))

/-- Embeds `compress_block(block)`: endpoints from max/min ordered by the
heuristic, then the four big-endian bytes of the packed codeword word
(`& 0xFF` is `% 256`). -/
def compress_block (block : List Nat) : List Nat :=
  let max_val := list_max block
  let min_val := list_min block
  let val0 := if block_decreasing block then max_val else min_val
  let val1 := if block_decreasing block then min_val else max_val
  let codes := pack_codes (block_codeword block)
  [val0, val1, (codes >>> 24) % 256, (codes >>> 16) % 256,
   (codes >>> 8) % 256, codes % 256]

/-- Rust slice `&l[a..b]`: panics (here `none`) unless `a ≤ b ≤ l.len()`. -/
def slice (l : List Nat) (a b : Nat) : Option (List Nat) :=
  if a ≤ b ∧ b ≤ l.length then some ((l.drop a).take (b - a)) else none

/-- Embeds `select_block(img, width, x, y, output)`: the four 4-pixel row
slices of the 4x4 block at origin `(x, y)`, concatenated. -/
def select_block (img : List Nat) (width x y : Nat) : Option (List Nat) := do
  let r0 ← slice img ((y + 0) * width + x) ((y + 0) * width + (x + 4))
  let r1 ← slice img ((y + 1) * width + x) ((y + 1) * width + (x + 4))
  let r2 ← slice img ((y + 2) * width + x) ((y + 2) * width + (x + 4))
  let r3 ← slice img ((y + 3) * width + x) ((y + 3) * width + (x + 4))
  some (r0 ++ r1 ++ r2 ++ r3)

/-- Embeds `compress(img, width, height)`: `(0..n).step_by(4)` visits
`4*i` for `i < (n+3)/4`; each block's 6 bytes are appended in block-scan
order.  `none` models a panic inside `select_block`. -/
def compress (img : List Nat) (width height : Nat) : Option (List Nat) :=
  (List.range ((height + 3) / 4)).foldlM
    (fun acc yi =>
      (List.range ((width + 3) / 4)).foldlM
        (fun acc2 xi => do
          let block ← select_block img width (4 * xi) (4 * yi)
          some (acc2 ++ compress_block block))
        acc)
    []

/-- `u32::from_be_bytes` on a list of bytes, most significant first. -/
def be32 (bytes : List Nat) : Nat :=
  bytes.foldl (fun acc b => acc * 256 + b) 0

/-- Embeds `decompress_pixel(img, width, height, x, y)`: locate the 6-byte
block, rebuild the big-endian codeword word, extract the pixel's 2-bit code
(`& 3` is `% 4`), pick the palette half by `val0 > val1`, and look up the
`flip = true` palette. -/
def decompress_pixel (img : List Nat) (width height x y : Nat) : Option Nat := do
  let block_idx := (y / 4) * (width / 4) + x / 4
  let block_offset := block_idx * 6
  let val0 ← img.get? (block_offset + 0)
  let val1 ← img.get? (block_offset + 1)
  let code_bytes ← slice img (block_offset + 2) (block_offset + 6)
  let codes := be32 code_bytes
  let pixel_idx := (y % 4) * 4 + x % 4
  let code := (codes >>> (pixel_idx * 2)) % 4
  let idx := if val0 > val1 then code + 0 else code + 4
  (get_options_table val0 val1 true).get? idx

/-- Embeds `decompress(img, width, height)`: pixel `(x, y)` of the result is
`decompress_pixel img width height x y`, written in row-major order. -/
def decompress (img : List Nat) (width height : Nat) : Option (List Nat) :=
  (List.range height).foldlM
    (fun acc y =>
      (List.range width).foldlM
        (fun acc2 x => do
          let p ← decompress_pixel img width height x y
          some (acc2 ++ [p]))
        acc)
    []

/-! ### Helper lemmas: codeword packing -/

theorem pack_codes_eq_upto (cw : Nat → Nat) : pack_codes cw = pack_upto cw 16 := rfl

theorem pack_upto_succ (cw : Nat → Nat) (n : Nat) :
    pack_upto cw (n + 1) = pack_upto cw n ||| (cw n <<< (2 * n)) := by
  simp [pack_upto, List.range_succ]

theorem lor_shiftLeft_eq_add {a c k : Nat} (h : a < 2 ^ k) :
    a ||| (c <<< k) = c * 2 ^ k + a := by
  rw [Nat.mul_comm]
  apply Nat.eq_of_testBit_eq
  intro i
  rw [Nat.testBit_or, Nat.testBit_shiftLeft, Nat.testBit_mul_pow_two_add c h i]
  rcases lt_or_ge i k with hik | hik
  · simp [hik, Nat.not_le.mpr hik]
  · have ha : a.testBit i = false :=
      Nat.testBit_lt_two_pow (lt_of_lt_of_le h (Nat.pow_le_pow_right (by norm_num) hik))
    simp [ha, hik, Nat.not_lt.mpr hik]

theorem two_pow_two_mul (n : Nat) : (2 : Nat) ^ (2 * n) = 4 ^ n := by
  rw [pow_mul]; norm_num

theorem sum_codes_lt (cw : Nat → Nat) (hcw : ∀ i, cw i < 4) (n : Nat) :
    (∑ j ∈ Finset.range n, cw j * 4 ^ j) < 4 ^ n := by
  induction n with
  | zero => simp
  | succ n ih =>
    rw [Finset.sum_range_succ, pow_succ]
    have h1 := hcw n
    have h2 : (0 : Nat) < 4 ^ n := Nat.pos_pow_of_pos n (by norm_num)
    nlinarith

theorem pack_upto_eq_sum (cw : Nat → Nat) (hcw : ∀ i, cw i < 4) (n : Nat) :
    pack_upto cw n = ∑ j ∈ Finset.range n, cw j * 4 ^ j := by
  induction n with
  | zero => simp [pack_upto]
  | succ n ih =>
    have hlt : (∑ j ∈ Finset.range n, cw j * 4 ^ j) < 2 ^ (2 * n) := by
      rw [two_pow_two_mul]; exact sum_codes_lt cw hcw n
    rw [pack_upto_succ, ih, lor_shiftLeft_eq_add hlt, two_pow_two_mul,
      Finset.sum_range_succ, Nat.add_comm]

theorem sum_codes_digit (cw : Nat → Nat) (hcw : ∀ i, cw i < 4) :
    ∀ n i, i < n → (∑ j ∈ Finset.range n, cw j * 4 ^ j) / 4 ^ i % 4 = cw i := by
  intro n
  induction n with
  | zero => omega
  | succ n ih =>
    intro i hi
    rw [Finset.sum_range_succ]
    rcases Nat.lt_or_ge i n with hin | hin
    · have h4i : (0 : Nat) < 4 ^ i := Nat.pos_pow_of_pos i (by norm_num)
      have hsplit : (4 : Nat) ^ n = 4 ^ i * (4 ^ (n - i - 1) * 4) := by
        rw [← pow_succ, ← pow_add]
        congr 1
        omega
      have hexp : cw n * 4 ^ n = 4 ^ i * (cw n * 4 ^ (n - i - 1) * 4) := by
        rw [hsplit]; ring
      rw [hexp, Nat.add_mul_div_left _ _ h4i, Nat.add_mul_mod_self_right]
      exact ih i hin
    · have hie : i = n := by omega
      subst hie
      rw [Nat.add_mul_div_right _ _ (Nat.pos_pow_of_pos i (by norm_num)),
        Nat.div_eq_of_lt (sum_codes_lt cw hcw i), Nat.zero_add,
        Nat.mod_eq_of_lt (hcw i)]

theorem pack_codes_lt (cw : Nat → Nat) (hcw : ∀ i, cw i < 4) : pack_codes cw < 2 ^ 32 := by
  rw [pack_codes_eq_upto, pack_upto_eq_sum cw hcw]
  have h1 := sum_codes_lt cw hcw 16
  have h2 : (4 : Nat) ^ 16 = 2 ^ 32 := by norm_num
  omega

theorem pack_codes_extract (cw : Nat → Nat) (hcw : ∀ i, cw i < 4) (i : Nat) (hi : i < 16) :
    (pack_codes cw >>> (2 * i)) % 4 = cw i := by
  rw [pack_codes_eq_upto, pack_upto_eq_sum cw hcw, Nat.shiftRight_eq_div_pow,
    two_pow_two_mul]
  exact sum_codes_digit cw hcw 16 i hi

/-- Splitting a 32-bit word into four big-endian bytes and reassembling them
with `u32::from_be_bytes` is the identity. -/
theorem be32_split (n : Nat) (h : n < 2 ^ 32) :
    be32 [(n >>> 24) % 256, (n >>> 16) % 256, (n >>> 8) % 256, n % 256] = n := by
  simp only [be32, List.foldl_cons, List.foldl_nil, Nat.shiftRight_eq_div_pow]
  norm_num
  omega

/-! ### Helper lemmas: the codeword scan -/

theorem choose_codeword_eq_ifs (d : Bool) (rs : List Int) :
    choose_codeword d rs =
      (let s := if d then 0 else 4
       let a0 := rs.getD (s + 0) 0
       let a1 := rs.getD (s + 1) 0
       let a2 := rs.getD (s + 2) 0
       let a3 := rs.getD (s + 3) 0
       let acc1 := if a0 < 99999 then ((0, a0) : Nat × Int) else (0, 99999)
       let acc2 := if a1 < acc1.2 then (1, a1) else acc1
       let acc3 := if a2 < acc2.2 then (2, a2) else acc2
       let acc4 := if a3 < acc3.2 then (3, a3) else acc3
       acc4.1) := rfl

theorem choose_codeword_lt_four (d : Bool) (rs : List Int) : choose_codeword d rs < 4 := by
  rw [choose_codeword_eq_ifs]
  cases d <;> (simp only; split_ifs <;> norm_num)

/-- `choose_codeword` returns the index of the first minimum among the four
residuals of the active half (indices `s .. s+3`, `s = 0` or `4`). -/
theorem choose_codeword_first_min_list (d : Bool) (rs : List Int) (hlen : rs.length = 8)
    (hub : ∀ r ∈ rs, r < 99999) :
    choose_codeword d rs < 4 ∧
    (∀ j, j < 4 →
      rs.getD ((if d then 0 else 4) + choose_codeword d rs) 0 ≤
        rs.getD ((if d then 0 else 4) + j) 0) ∧
    (∀ j, j < choose_codeword d rs →
      rs.getD ((if d then 0 else 4) + choose_codeword d rs) 0 <
        rs.getD ((if d then 0 else 4) + j) 0) := by
  rcases rs with _ | ⟨r0, _ | ⟨r1, _ | ⟨r2, _ | ⟨r3, _ | ⟨r4, _ | ⟨r5, _ | ⟨r6, _ | ⟨r7, _ |
    ⟨r8, rs⟩⟩⟩⟩⟩⟩⟩⟩⟩ <;> simp at hlen
  have h0 : r0 < 99999 := hub r0 (by simp)
  have h1 : r1 < 99999 := hub r1 (by simp)
  have h2 : r2 < 99999 := hub r2 (by simp)
  have h3 : r3 < 99999 := hub r3 (by simp)
  have h4 : r4 < 99999 := hub r4 (by simp)
  have h5 : r5 < 99999 := hub r5 (by simp)
  have h6 : r6 < 99999 := hub r6 (by simp)
  have h7 : r7 < 99999 := hub r7 (by simp)
  rw [choose_codeword_eq_ifs]
  cases d <;>
    (simp only [List.getD_cons_zero, List.getD_cons_succ, Nat.zero_add, if_true, if_false,
       Bool.false_eq_true]
     split_ifs <;>
       (refine ⟨by norm_num, ?_, ?_⟩ <;>
         (intro j hj
          interval_cases j <;>
            simp only [List.getD_cons_zero, List.getD_cons_succ, Nat.zero_add] <;> omega)))

/-! ### Helper lemmas: palette and residual bounds -/

theorem options_table_length (a b : Nat) (flip : Bool) :
    (get_options_table a b flip).length = 8 := rfl

theorem options_table_mem_lt (a b : Nat) (flip : Bool) (ha : a < 256) (hb : b < 256) :
    ∀ o ∈ get_options_table a b flip, o < 256 := by
  intro o ho
  have m2 : (2 * a + b) / 3 % 256 < 256 := Nat.mod_lt _ (by norm_num)
  have m3 : (a + 2 * b) / 3 % 256 < 256 := Nat.mod_lt _ (by norm_num)
  have m6 : (a + b) / 2 % 256 < 256 := Nat.mod_lt _ (by norm_num)
  simp [get_options_table] at ho
  rcases ho with rfl | rfl | rfl | rfl | rfl | rfl | rfl | rfl <;> cases flip <;>
    simp_all

theorem residual_row_length (options : List Nat) (v : Nat) :
    (residual_row options v).length = options.length := by
  simp [residual_row]

theorem residual_row_bound (options : List Nat) (v : Nat)
    (hopt : ∀ o ∈ options, o < 256) (hv : v < 256) :
    ∀ r ∈ residual_row options v, r < 99999 := by
  intro r hr
  simp only [residual_row, List.mem_map] at hr
  obtain ⟨o, ho, rfl⟩ := hr
  have hov := hopt o ho
  have hvz : (v : Int) < 256 := by exact_mod_cast hv
  have hoz : (o : Int) < 256 := by exact_mod_cast hov
  have hv0 : (0 : Int) ≤ (v : Int) := Int.natCast_nonneg v
  have ho0 : (0 : Int) ≤ (o : Int) := Int.natCast_nonneg o
  have habs : |(v : Int) - (o : Int)| ≤ 256 := by
    rw [abs_le]
    constructor <;> linarith
  linarith

theorem residual_row_getD (options : List Nat) (v : Nat) (j : Nat)
    (hj : j < options.length) :
    (residual_row options v).getD j 0 = |(v : Int) - ((options.getD j 0 : Nat) : Int)| := by
  have hj2 : j < (residual_row options v).length := by
    rw [residual_row_length]; exact hj
  rw [List.getD_eq_getElem?_getD, List.getElem?_eq_getElem hj2,
    List.getD_eq_getElem?_getD, List.getElem?_eq_getElem hj]
  simp [residual_row]

/-! ### Claim theorems -/

/-- C1: for every pair of bytes `(val0, val1)` and every `flip`, the palette
builder returns exactly the 8 entries `[val0, val1, (2*val0+val1)/3,
(val0+2*val1)/3, flip ? val0 : val1, flip ? val1 : val0, (val0+val1)/2, 0]`
with truncating integer division. -/
theorem options_table_spec (val0 val1 : Nat) (h0 : val0 < 256) (h1 : val1 < 256)
    (flip : Bool) :
    get_options_table val0 val1 flip =
      [val0, val1, (2 * val0 + val1) / 3, (val0 + 2 * val1) / 3,
       if flip then val0 else val1, if flip then val1 else val0,
       (val0 + val1) / 2, 0] := by
  have h2 : (2 * val0 + val1) / 3 % 256 = (2 * val0 + val1) / 3 := by omega
  have h3 : (val0 + 2 * val1) / 3 % 256 = (val0 + 2 * val1) / 3 := by omega
  have h6 : (val0 + val1) / 2 % 256 = (val0 + val1) / 2 := by omega
  simp [get_options_table, h2, h3, h6]

/-- Witness for C1 at `(val0, val1, flip) = (7, 200, true)`. -/
theorem options_table_spec_witness :
    get_options_table 7 200 true =
      [7, 200, (2 * 7 + 200) / 3, (7 + 2 * 200) / 3, 7, 200, (7 + 200) / 2, 0] :=
  options_table_spec 7 200 (by decide) (by decide) true

/-- C2: the block encoder takes `maxVal = max(block)`, `minVal = min(block)`,
evaluates residual totals against the palette built from
`(maxVal, minVal, flip = false)`, sets
`decreasingOrder = totals[2] + totals[3] < totals[6] + totals[7]` (each
`totals[j]` summing `|pixel - palette[j]|` over the block), and stores the
endpoints `(maxVal, minVal)` when `decreasingOrder` holds and
`(minVal, maxVal)` otherwise. -/
theorem compress_block_order_endpoints (block : List Nat) :
    (compress_block block).take 2 =
      if (block.map (fun (v : Nat) =>
            |(v : Int) -
              (((get_options_table (list_max block) (list_min block) false).getD 2 0 : Nat) : Int)|)).sum +
         (block.map (fun (v : Nat) =>
            |(v : Int) -
              (((get_options_table (list_max block) (list_min block) false).getD 3 0 : Nat) : Int)|)).sum <
         (block.map (fun (v : Nat) =>
            |(v : Int) -
              (((get_options_table (list_max block) (list_min block) false).getD 6 0 : Nat) : Int)|)).sum +
         (block.map (fun (v : Nat) =>
            |(v : Int) -
              (((get_options_table (list_max block) (list_min block) false).getD 7 0 : Nat) : Int)|)).sum
      then [list_max block, list_min block]
      else [list_min block, list_max block] := by
  have key : ∀ j, j < 8 →
      total_residuals block (get_options_table (list_max block) (list_min block) false) j =
        (block.map (fun (v : Nat) =>
          |(v : Int) -
            (((get_options_table (list_max block) (list_min block) false).getD j 0 : Nat) : Int)|)).sum := by
    intro j hj
    unfold total_residuals
    refine congrArg List.sum (List.map_congr_left ?_)
    intro v hv
    exact residual_row_getD _ v j (by rw [options_table_length]; exact hj)
  rw [← key 2 (by norm_num), ← key 3 (by norm_num), ← key 6 (by norm_num),
    ← key 7 (by norm_num)]
  by_cases hd :
      total_residuals block (get_options_table (list_max block) (list_min block) false) 2 +
        total_residuals block (get_options_table (list_max block) (list_min block) false) 3 <
      total_residuals block (get_options_table (list_max block) (list_min block) false) 6 +
        total_residuals block (get_options_table (list_max block) (list_min block) false) 7
  · have hbd : block_decreasing block = true := by
      unfold block_decreasing block_options
      exact decide_eq_true hd
    rw [if_pos hd]
    simp [compress_block, hbd]
  · have hbd : block_decreasing block = false := by
      unfold block_decreasing block_options
      exact decide_eq_false hd
    rw [if_neg hd]
    simp [compress_block, hbd]

/-- C3: for every pixel value and any palette built from two byte endpoints at
encode time (`flip = false`), the chosen 2-bit codeword is the index (0..3) of
the minimum residual in the active half of the palette (offsets 0..3 when
`decreasingOrder`, 4..7 otherwise); ties go to the lowest index, i.e. every
residual strictly before the chosen one is strictly larger. -/
theorem codeword_first_min (d : Bool) (val0 val1 v : Nat)
    (h0 : val0 < 256) (h1 : val1 < 256) (hv : v < 256) :
    choose_codeword d (residual_row (get_options_table val0 val1 false) v) < 4 ∧
    (∀ j, j < 4 →
      (residual_row (get_options_table val0 val1 false) v).getD
          ((if d then 0 else 4) +
            choose_codeword d (residual_row (get_options_table val0 val1 false) v)) 0 ≤
        (residual_row (get_options_table val0 val1 false) v).getD ((if d then 0 else 4) + j) 0) ∧
    (∀ j, j < choose_codeword d (residual_row (get_options_table val0 val1 false) v) →
      (residual_row (get_options_table val0 val1 false) v).getD
          ((if d then 0 else 4) +
            choose_codeword d (residual_row (get_options_table val0 val1 false) v)) 0 <
        (residual_row (get_options_table val0 val1 false) v).getD ((if d then 0 else 4) + j) 0) := by
  have hlen : (residual_row (get_options_table val0 val1 false) v).length = 8 := by
    rw [residual_row_length, options_table_length]
  exact choose_codeword_first_min_list d _ hlen
    (residual_row_bound _ v (options_table_mem_lt _ _ _ h0 h1) hv)

/-- Witness for C3 at `(d, val0, val1, v) = (false, 200, 3, 100)`. -/
theorem codeword_first_min_witness :
    choose_codeword false (residual_row (get_options_table 200 3 false) 100) < 4 :=
  (codeword_first_min false 200 3 100 (by decide) (by decide) (by decide)).1

/-- C4: the 16 codewords are packed into a word with pixel `i` at bits
`2i, 2i+1` (pixel 0 least significant), and the compressed block is exactly
the 6 bytes `[val0, val1, word byte 3 (MSB), byte 2, byte 1, byte 0 (LSB)]`. -/
theorem compress_block_packing (block : List Nat) :
    ∃ codes, codes < 2 ^ 32 ∧
      (∀ i, i < 16 → (codes >>> (2 * i)) % 4 = block_codeword block i) ∧
      compress_block block =
        [if block_decreasing block then list_max block else list_min block,
         if block_decreasing block then list_min block else list_max block,
         (codes >>> 24) % 256, (codes >>> 16) % 256, (codes >>> 8) % 256,
         codes % 256] := by
  refine ⟨pack_codes (block_codeword block), ?_, ?_, rfl⟩
  · exact pack_codes_lt _ (fun i => choose_codeword_lt_four _ _)
  · intro i hi
    exact pack_codes_extract _ (fun i => choose_codeword_lt_four _ _) i hi

theorem block_codeword_lt_four (block : List Nat) (i : Nat) : block_codeword block i < 4 :=
  choose_codeword_lt_four _ _

theorem pack_block_codes_eq_sum (block : List Nat) :
    pack_codes (block_codeword block) =
      ∑ j ∈ Finset.range 16, block_codeword block j * 4 ^ j := by
  rw [pack_codes_eq_upto]
  exact pack_upto_eq_sum _ (block_codeword_lt_four block) 16

theorem options_table_get?_getD (a b : Nat) (flip : Bool) (idx : Nat) (h : idx < 8) :
    (get_options_table a b flip).get? idx =
      some ((get_options_table a b flip).getD idx 0) := by
  have h8 : idx < (get_options_table a b flip).length := by
    rw [options_table_length]; exact h
  rw [List.get?_eq_getElem?, List.getElem?_eq_getElem h8, List.getD_eq_getElem?_getD,
    List.getElem?_eq_getElem h8]
  rfl

/-- C5: for a 6-byte compressed block and a pixel `(x, y)` of its 4x4 grid,
the decoder returns `palette[idx]` where the palette is built from
`(val0 = byte 0, val1 = byte 1, flip = true)`, the codeword word is the
big-endian 32-bit integer from bytes 2..5, `code = (word >> (p*2)) & 3` for
pixel index `p = y*4 + x`, and `idx = code` when `val0 > val1` (strictly) and
`code + 4` otherwise. -/
theorem decompress_pixel_spec (b : List Nat) (hlen : b.length = 6)
    (x y : Nat) (hx : x < 4) (hy : y < 4) :
    decompress_pixel b 4 4 x y =
      some ((get_options_table (b.getD 0 0) (b.getD 1 0) true).getD
        (if b.getD 0 0 > b.getD 1 0
         then (be32 (b.drop 2) >>> ((y * 4 + x) * 2)) % 4
         else (be32 (b.drop 2) >>> ((y * 4 + x) * 2)) % 4 + 4) 0) := by
  rcases b with _ | ⟨b0, _ | ⟨b1, _ | ⟨b2, _ | ⟨b3, _ | ⟨b4, _ | ⟨b5, _ | ⟨b6, b⟩⟩⟩⟩⟩⟩⟩ <;>
    simp at hlen
  have hx4 : x / 4 = 0 := Nat.div_eq_of_lt hx
  have hy4 : y / 4 = 0 := Nat.div_eq_of_lt hy
  have hxm : x % 4 = x := Nat.mod_eq_of_lt hx
  have hym : y % 4 = y := Nat.mod_eq_of_lt hy
  have hcode : (be32 [b2, b3, b4, b5] >>> ((y * 4 + x) * 2)) % 4 < 4 :=
    Nat.mod_lt _ (by norm_num)
  simp only [decompress_pixel, slice, hx4, hy4, hxm, hym, List.getD_cons_zero,
    List.getD_cons_succ, List.drop_succ_cons, List.drop_zero]
  norm_num
  by_cases hgt : b1 < b0
  · simp only [hgt, if_true, if_pos hgt]
    rw [List.getElem?_eq_getElem (by rw [options_table_length]; omega)]
    simp
  · simp only [hgt, if_false, if_neg hgt]
    rw [List.getElem?_eq_getElem (by rw [options_table_length]; omega)]
    simp

/-- Witness for C5 at the block `[9, 7, 1, 2, 3, 4]`, pixel `(x, y) = (2, 1)`. -/
theorem decompress_pixel_spec_witness :
    decompress_pixel [9, 7, 1, 2, 3, 4] 4 4 2 1 =
      some ((get_options_table 9 7 true).getD
        (if (9 : Nat) > 7
         then (be32 [1, 2, 3, 4] >>> ((1 * 4 + 2) * 2)) % 4
         else (be32 [1, 2, 3, 4] >>> ((1 * 4 + 2) * 2)) % 4 + 4) 0) :=
  decompress_pixel_spec [9, 7, 1, 2, 3, 4] (by decide) 2 1 (by decide) (by decide)

theorem foldl_max_self (m v : Nat) : (List.replicate m v).foldl Nat.max v = v := by
  induction m with
  | zero => rfl
  | succ m ih => simp [List.replicate_succ, List.foldl_cons, Nat.max_self, ih]

theorem foldl_min_self (m v : Nat) : (List.replicate m v).foldl Nat.min v = v := by
  induction m with
  | zero => rfl
  | succ m ih => simp [List.replicate_succ, List.foldl_cons, Nat.min_self, ih]

theorem list_max_replicate (n v : Nat) : list_max (List.replicate (n + 1) v) = v := by
  simp [List.replicate_succ, list_max, foldl_max_self]

theorem list_min_replicate (n v : Nat) : list_min (List.replicate (n + 1) v) = v := by
  simp [List.replicate_succ, list_min, foldl_min_self]

theorem total_residuals_replicate (n v : Nat) (options : List Nat) (j : Nat) :
    total_residuals (List.replicate n v) options j =
      (n : Int) * (residual_row options v).getD j 0 := by
  unfold total_residuals
  rw [List.map_replicate, List.sum_replicate, nsmul_eq_mul]

theorem block_options_replicate (v : Nat) (hv : v < 256) :
    block_options (List.replicate 16 v) = [v, v, v, v, v, v, v, 0] := by
  unfold block_options
  have hmax : list_max (List.replicate 16 v) = v := list_max_replicate 15 v
  have hmin : list_min (List.replicate 16 v) = v := list_min_replicate 15 v
  rw [hmax, hmin]
  simp [get_options_table]
  omega

theorem residual_row_const (v : Nat) :
    residual_row [v, v, v, v, v, v, v, 0] v = [0, 0, 0, 0, 0, 0, 0, (v : Int)] := by
  simp [residual_row]

theorem compress_block_const (v : Nat) (hv : v < 256) :
    compress_block (List.replicate 16 v) = [v, v, 0, 0, 0, 0] := by
  rcases Nat.eq_zero_or_pos v with rfl | hvpos
  · decide
  · have hmax : list_max (List.replicate 16 v) = v := list_max_replicate 15 v
    have hmin : list_min (List.replicate 16 v) = v := list_min_replicate 15 v
    have hopt := block_options_replicate v hv
    have hd : block_decreasing (List.replicate 16 v) = true := by
      unfold block_decreasing
      rw [hopt, total_residuals_replicate, total_residuals_replicate,
        total_residuals_replicate, total_residuals_replicate, residual_row_const]
      simp only [List.getD_cons_zero, List.getD_cons_succ, decide_eq_true_eq]
      have : (0 : Int) < (v : Int) := by exact_mod_cast hvpos
      simp
      omega
    have hcw : ∀ i, i < 16 → block_codeword (List.replicate 16 v) i = 0 := by
      intro i hi
      unfold block_codeword
      rw [hd, hopt]
      have hgd : (List.replicate 16 v).getD i 0 = v := by
        have hlen : i < (List.replicate 16 v).length := by simpa using hi
        rw [List.getD_eq_getElem?_getD, List.getElem?_eq_getElem hlen,
          List.getElem_replicate]
        rfl
      rw [hgd, residual_row_const]
      rfl
    have hpack : pack_codes (block_codeword (List.replicate 16 v)) = 0 := by
      rw [pack_block_codes_eq_sum]
      apply Finset.sum_eq_zero
      intro i hi
      rw [hcw i (Finset.mem_range.mp hi)]
      simp
    simp only [compress_block]
    rw [hd, hmax, hmin, hpack]
    simp

theorem decompress_const_block (v : Nat) (hv : v < 256) (x y : Nat)
    (hx : x < 4) (hy : y < 4) :
    decompress_pixel (compress_block (List.replicate 16 v)) 4 4 x y = some v := by
  rw [compress_block_const v hv]
  have hx4 : x / 4 = 0 := Nat.div_eq_of_lt hx
  have hy4 : y / 4 = 0 := Nat.div_eq_of_lt hy
  simp [decompress_pixel, slice, hx4, hy4, be32, get_options_table, lt_irrefl]

/-- C6: encoding a 4x4 block whose 16 pixels all equal a byte `v` and then
decoding any of its pixels reconstructs exactly `v`: the round trip is
lossless on constant blocks. -/
theorem roundtrip_const (v : Nat) (hv : v < 256) (x y : Nat) (hx : x < 4) (hy : y < 4) :
    decompress_pixel (compress_block (List.replicate 16 v)) 4 4 x y = some v :=
  decompress_const_block v hv x y hx hy

/-- Witness for C6 at `v = 37`, pixel `(x, y) = (3, 2)`. -/
theorem roundtrip_const_witness :
    decompress_pixel (compress_block (List.replicate 16 37)) 4 4 3 2 = some 37 :=
  roundtrip_const 37 (by decide) 3 2 (by decide) (by decide)

/-! ### Helper lemmas: extremal values of a list -/

theorem le_foldl_max (xs : List Nat) (acc a : Nat) (h : a ≤ acc ∨ a ∈ xs) :
    a ≤ xs.foldl Nat.max acc := by
  induction xs generalizing acc with
  | nil => simpa using h
  | cons x xs ih =>
    apply ih
    rcases h with h | h
    · exact Or.inl (le_trans h (Nat.le_max_left acc x))
    · rcases List.mem_cons.mp h with rfl | h
      · exact Or.inl (Nat.le_max_right acc a)
      · exact Or.inr h

theorem foldl_max_le (xs : List Nat) (acc m : Nat) (hacc : acc ≤ m)
    (h : ∀ v ∈ xs, v ≤ m) : xs.foldl Nat.max acc ≤ m := by
  induction xs generalizing acc with
  | nil => simpa
  | cons x xs ih =>
    apply ih
    · exact Nat.max_le.mpr ⟨hacc, h x (by simp)⟩
    · intro v hv
      exact h v (by simp [hv])

theorem foldl_min_le (xs : List Nat) (acc a : Nat) (h : acc ≤ a ∨ a ∈ xs) :
    xs.foldl Nat.min acc ≤ a := by
  induction xs generalizing acc with
  | nil => simpa using h
  | cons x xs ih =>
    apply ih
    rcases h with h | h
    · exact Or.inl (le_trans (Nat.min_le_left acc x) h)
    · rcases List.mem_cons.mp h with rfl | h
      · exact Or.inl (Nat.min_le_right acc a)
      · exact Or.inr h

theorem list_max_extreme (block : List Nat) (hmem : 255 ∈ block)
    (hub : ∀ v ∈ block, v ≤ 255) : list_max block = 255 := by
  cases block with
  | nil => simp at hmem
  | cons x xs =>
    apply le_antisymm
    · exact foldl_max_le xs x 255 (hub x (by simp)) (fun v hv => hub v (by simp [hv]))
    · rcases List.mem_cons.mp hmem with h | h
      · exact le_foldl_max xs x 255 (Or.inl (le_of_eq h))
      · exact le_foldl_max xs x 255 (Or.inr h)

theorem list_min_extreme (block : List Nat) (hmem : 0 ∈ block) :
    list_min block = 0 := by
  cases block with
  | nil => rfl
  | cons x xs =>
    apply Nat.le_zero.mp
    rcases List.mem_cons.mp hmem with h | h
    · exact foldl_min_le xs x 0 (Or.inl (le_of_eq h.symm))
    · exact foldl_min_le xs x 0 (Or.inr h)

/-- Decoding pixel `(x, y)` of a single block whose four trailing bytes are
the big-endian bytes of a 32-bit word `C`. -/
theorem decompress_pixel_six (b0 b1 C : Nat) (hC : C < 2 ^ 32) (x y : Nat)
    (hx : x < 4) (hy : y < 4) :
    decompress_pixel [b0, b1, (C >>> 24) % 256, (C >>> 16) % 256, (C >>> 8) % 256, C % 256]
        4 4 x y =
      (get_options_table b0 b1 true).get?
        (if b0 > b1 then (C >>> ((y * 4 + x) * 2)) % 4
         else (C >>> ((y * 4 + x) * 2)) % 4 + 4) := by
  have hx4 : x / 4 = 0 := Nat.div_eq_of_lt hx
  have hy4 : y / 4 = 0 := Nat.div_eq_of_lt hy
  have hxm : x % 4 = x := Nat.mod_eq_of_lt hx
  have hym : y % 4 = y := Nat.mod_eq_of_lt hy
  simp only [decompress_pixel, slice, hx4, hy4, hxm, hym, List.getD_cons_zero,
    List.getD_cons_succ, List.drop_succ_cons, List.drop_zero]
  norm_num
  rw [be32_split C hC]

theorem compress_block_mixed (block : List Nat) (hb : ∀ v ∈ block, v = 0 ∨ v = 255)
    (h0 : 0 ∈ block) (h255 : 255 ∈ block) :
    compress_block block =
      [if block_decreasing block then 255 else 0,
       if block_decreasing block then 0 else 255,
       (pack_codes (block_codeword block) >>> 24) % 256,
       (pack_codes (block_codeword block) >>> 16) % 256,
       (pack_codes (block_codeword block) >>> 8) % 256,
       pack_codes (block_codeword block) % 256] := by
  have hub : ∀ v ∈ block, v ≤ 255 := by
    intro v hv
    rcases hb v hv with rfl | rfl <;> norm_num
  have hmax := list_max_extreme block h255 hub
  have hmin := list_min_extreme block h0
  simp only [compress_block]
  rw [hmax, hmin]

theorem block_codeword_mixed (block : List Nat) (hb : ∀ v ∈ block, v = 0 ∨ v = 255)
    (h0 : 0 ∈ block) (h255 : 255 ∈ block) (i : Nat) (hi : i < block.length) :
    block_codeword block i =
      if block_decreasing block then (if block.getD i 0 = 255 then 0 else 1)
      else (if block.getD i 0 = 255 then 1 else 0) := by
  have hub : ∀ v ∈ block, v ≤ 255 := by
    intro v hv
    rcases hb v hv with rfl | rfl <;> norm_num
  have hmax := list_max_extreme block h255 hub
  have hmin := list_min_extreme block h0
  have hvmem : block.getD i 0 ∈ block := by
    rw [List.getD_eq_getElem?_getD, List.getElem?_eq_getElem hi]
    simp only [Option.getD_some]
    exact List.getElem_mem _
  unfold block_codeword block_options
  rw [hmax, hmin]
  rcases hb _ hvmem with hv | hv <;> rw [hv] <;>
    cases hbd : block_decreasing block <;> decide

/-- C7: a 4x4 block whose 16 pixels are all 0 or 255 decodes, after encoding,
to a value in `{0, 255}` at every pixel; no interpolated value is ever
reconstructed for such a block. -/
theorem roundtrip_extremes (block : List Nat) (h16 : block.length = 16)
    (hb : ∀ v ∈ block, v = 0 ∨ v = 255) (x y : Nat) (hx : x < 4) (hy : y < 4) :
    ∃ w, decompress_pixel (compress_block block) 4 4 x y = some w ∧
      (w = 0 ∨ w = 255) := by
  by_cases h255 : 255 ∈ block
  · by_cases h0 : 0 ∈ block
    · have hp : y * 4 + x < 16 := by omega
      have hplen : y * 4 + x < block.length := by omega
      have hvmem : block.getD (y * 4 + x) 0 ∈ block := by
        rw [List.getD_eq_getElem?_getD, List.getElem?_eq_getElem hplen]
        simp only [Option.getD_some]
        exact List.getElem_mem _
      refine ⟨block.getD (y * 4 + x) 0, ?_, hb _ hvmem⟩
      rw [compress_block_mixed block hb h0 h255]
      have hC := pack_codes_lt (block_codeword block) (block_codeword_lt_four block)
      have hcw := block_codeword_mixed block hb h0 h255 (y * 4 + x) hplen
      have hext := pack_codes_extract (block_codeword block)
        (block_codeword_lt_four block) (y * 4 + x) hp
      rw [show 2 * (y * 4 + x) = (y * 4 + x) * 2 by ring] at hext
      cases hbd : block_decreasing block with
      | false =>
        rw [hbd] at hcw
        simp only [Bool.false_eq_true, if_false] at hcw ⊢
        rw [decompress_pixel_six 0 255 _ hC x y hx hy, if_neg (by norm_num), hext, hcw]
        rcases hb _ hvmem with hv | hv <;> rw [hv] <;> decide
      | true =>
        rw [hbd] at hcw
        simp only [if_true] at hcw ⊢
        rw [decompress_pixel_six 255 0 _ hC x y hx hy, if_pos (by norm_num), hext, hcw]
        rcases hb _ hvmem with hv | hv <;> rw [hv] <;> decide
    · have hrep : block = List.replicate 16 255 := by
        rw [List.eq_replicate_iff]
        refine ⟨h16, fun b hbm => ?_⟩
        rcases hb b hbm with rfl | rfl
        · exact absurd hbm h0
        · rfl
      rw [hrep]
      exact ⟨255, decompress_const_block 255 (by norm_num) x y hx hy, Or.inr rfl⟩
  · have hrep : block = List.replicate 16 0 := by
      rw [List.eq_replicate_iff]
      refine ⟨h16, fun b hbm => ?_⟩
      rcases hb b hbm with rfl | rfl
      · rfl
      · exact absurd hbm h255
    rw [hrep]
    exact ⟨0, decompress_const_block 0 (by norm_num) x y hx hy, Or.inl rfl⟩

/-- Witness for C7 at a checkerboard of 0 and 255, pixel `(x, y) = (1, 0)`. -/
theorem roundtrip_extremes_witness :
    ∃ w, decompress_pixel
        (compress_block [0, 255, 0, 255, 255, 0, 255, 0, 0, 255, 0, 255, 255, 0, 255, 0])
        4 4 1 0 = some w ∧ (w = 0 ∨ w = 255) :=
  roundtrip_extremes [0, 255, 0, 255, 255, 0, 255, 0, 0, 255, 0, 255, 255, 0, 255, 0]
    (by decide) (by decide) 1 0 (by decide) (by decide)

/-! ### Helper lemmas: image-level iteration -/

theorem foldlM_option_length {α : Type} (k : Nat) (l : List α)
    (f : List Nat → α → Option (List Nat))
    (h : ∀ acc a, a ∈ l → ∃ out, f acc a = some out ∧ out.length = acc.length + k) :
    ∀ acc, ∃ out, l.foldlM f acc = some out ∧
      out.length = acc.length + k * l.length := by
  induction l with
  | nil =>
    intro acc
    exact ⟨acc, rfl, by simp⟩
  | cons a l ih =>
    intro acc
    obtain ⟨out1, hf, hlen1⟩ := h acc a (by simp)
    obtain ⟨out, hfold, hlen⟩ := ih (fun acc2 b hb => h acc2 b (by simp [hb])) out1
    refine ⟨out, ?_, ?_⟩
    · rw [List.foldlM_cons, hf]
      simpa using hfold
    · rw [hlen, hlen1, List.length_cons]
      ring

theorem select_block_some (img : List Nat) (width x y : Nat)
    (hx : x + 4 ≤ width) (hy4 : (y + 4) * width ≤ img.length) :
    ∃ b, select_block img width x y = some b := by
  have h : ∀ r, r < 4 → (y + r) * width + (x + 4) ≤ img.length := by
    intro r hr
    have h2 : (y + r) * width + width = (y + r + 1) * width := by ring
    have h3 : (y + r + 1) * width ≤ (y + 4) * width :=
      Nat.mul_le_mul_right _ (by omega)
    omega
  unfold select_block slice
  rw [if_pos ⟨by omega, h 0 (by norm_num)⟩, if_pos ⟨by omega, h 1 (by norm_num)⟩,
    if_pos ⟨by omega, h 2 (by norm_num)⟩, if_pos ⟨by omega, h 3 (by norm_num)⟩]
  exact ⟨_, rfl⟩

theorem compress_shape (img : List Nat) (width height : Nat)
    (hw : width % 4 = 0) (hh : height % 4 = 0) (hlen : img.length = width * height) :
    ∃ out, compress img width height = some out ∧
      out.length = (width / 4) * (height / 4) * 6 := by
  unfold compress
  have hw4 : (width + 3) / 4 = width / 4 := by omega
  have hh4 : (height + 3) / 4 = height / 4 := by omega
  rw [hw4, hh4]
  have inner : ∀ acc (yi : Nat), yi ∈ List.range (height / 4) →
      ∃ out,
        (List.range (width / 4)).foldlM
          (fun acc2 xi => do
            let block ← select_block img width (4 * xi) (4 * yi)
            some (acc2 ++ compress_block block))
          acc = some out ∧
        out.length = acc.length + 6 * (width / 4) := by
    intro acc yi hyi
    have step : ∀ acc2 (xi : Nat), xi ∈ List.range (width / 4) →
        ∃ out,
          (do
            let block ← select_block img width (4 * xi) (4 * yi)
            some (acc2 ++ compress_block block)) = some out ∧
          out.length = acc2.length + 6 := by
      intro acc2 xi hxi
      have hxi4 : 4 * xi + 4 ≤ width := by
        have := List.mem_range.mp hxi
        omega
      have hyi4 : (4 * yi + 4) * width ≤ img.length := by
        rw [hlen]
        have hyy := List.mem_range.mp hyi
        have hle : 4 * yi + 4 ≤ height := by omega
        calc (4 * yi + 4) * width ≤ height * width := Nat.mul_le_mul_right _ hle
          _ = width * height := Nat.mul_comm _ _
      obtain ⟨b, hbsel⟩ := select_block_some img width (4 * xi) (4 * yi) hxi4 hyi4
      refine ⟨acc2 ++ compress_block b, ?_, ?_⟩
      · rw [hbsel]
        rfl
      · simp [compress_block]
    have := foldlM_option_length 6 (List.range (width / 4)) _ step acc
    simpa [List.length_range] using this
  have := foldlM_option_length (6 * (width / 4)) (List.range (height / 4)) _ inner []
  obtain ⟨out, hfold, hlen2⟩ := this
  refine ⟨out, hfold, ?_⟩
  rw [hlen2]
  simp [List.length_range]
  ring

theorem decompress_pixel_some (img : List Nat) (width height x y : Nat)
    (hx : x < width) (hy : y < height) (hw : width % 4 = 0) (hh : height % 4 = 0)
    (hlen : (width / 4) * (height / 4) * 6 ≤ img.length) :
    ∃ w, decompress_pixel img width height x y = some w := by
  have hbi : ((y / 4) * (width / 4) + x / 4) * 6 + 6 ≤ img.length := by
    have hx4 : x / 4 < width / 4 := by omega
    have hy4 : y / 4 < height / 4 := by omega
    have h1 : (y / 4) * (width / 4) + x / 4 + 1 ≤ (width / 4) * (height / 4) := by
      calc (y / 4) * (width / 4) + x / 4 + 1 ≤ (y / 4) * (width / 4) + width / 4 := by
            omega
        _ = (y / 4 + 1) * (width / 4) := by ring
        _ ≤ (height / 4) * (width / 4) := Nat.mul_le_mul_right _ (by omega)
        _ = (width / 4) * (height / 4) := Nat.mul_comm _ _
    calc ((y / 4) * (width / 4) + x / 4) * 6 + 6
        = ((y / 4) * (width / 4) + x / 4 + 1) * 6 := by ring
      _ ≤ (width / 4) * (height / 4) * 6 := Nat.mul_le_mul_right _ h1
      _ ≤ img.length := hlen
  have h0 : ((y / 4) * (width / 4) + x / 4) * 6 + 0 < img.length := by omega
  have h1 : ((y / 4) * (width / 4) + x / 4) * 6 + 1 < img.length := by omega
  simp only [decompress_pixel]
  rw [List.get?_eq_getElem?, List.getElem?_eq_getElem h0,
    List.get?_eq_getElem?, List.getElem?_eq_getElem h1]
  unfold slice
  rw [if_pos ⟨by omega, by omega⟩]
  simp only [Option.bind_eq_bind, Option.some_bind]
  set code := (be32 ((img.drop (((y / 4) * (width / 4) + x / 4) * 6 + 2)).take
    (((y / 4) * (width / 4) + x / 4) * 6 + 6 - (((y / 4) * (width / 4) + x / 4) * 6 + 2))) >>>
      ((y % 4 * 4 + x % 4) * 2)) % 4 with hcode
  have hc4 : code < 4 := Nat.mod_lt _ (by norm_num)
  by_cases hgt : img[((y / 4) * (width / 4) + x / 4) * 6 + 1] <
      img[((y / 4) * (width / 4) + x / 4) * 6 + 0]
  · rw [if_pos hgt, options_table_get?_getD _ _ _ _ (by omega)]
    exact ⟨_, rfl⟩
  · rw [if_neg hgt, options_table_get?_getD _ _ _ _ (by omega)]
    exact ⟨_, rfl⟩

theorem decompress_shape (img : List Nat) (width height : Nat)
    (hw : width % 4 = 0) (hh : height % 4 = 0)
    (hlen : (width / 4) * (height / 4) * 6 ≤ img.length) :
    ∃ out, decompress img width height = some out ∧
      out.length = width * height := by
  unfold decompress
  have inner : ∀ acc (y : Nat), y ∈ List.range height →
      ∃ out,
        (List.range width).foldlM
          (fun acc2 x => do
            let p ← decompress_pixel img width height x y
            some (acc2 ++ [p]))
          acc = some out ∧
        out.length = acc.length + width := by
    intro acc y hy
    have step : ∀ acc2 (x : Nat), x ∈ List.range width →
        ∃ out,
          (do
            let p ← decompress_pixel img width height x y
            some (acc2 ++ [p])) = some out ∧
          out.length = acc2.length + 1 := by
      intro acc2 x hx
      obtain ⟨w, hwp⟩ := decompress_pixel_some img width height x y
        (List.mem_range.mp hx) (List.mem_range.mp hy) hw hh hlen
      refine ⟨acc2 ++ [w], ?_, by simp⟩
      rw [hwp]
      rfl
    have := foldlM_option_length 1 (List.range width) _ step acc
    simpa [List.length_range] using this
  have := foldlM_option_length width (List.range height) _ inner []
  obtain ⟨out, hfold, hlen2⟩ := this
  refine ⟨out, hfold, ?_⟩
  rw [hlen2]
  simp [List.length_range]

/-- C8: for width and height multiples of 4, encoding a `width*height` pixel
buffer succeeds and yields exactly `(width/4)*(height/4)*6` bytes, and
decoding any compressed buffer of at least `(width/4)*(height/4)*6` bytes with
the same dimensions succeeds and yields exactly `width*height` bytes. -/
theorem codec_shape (width height : Nat) (hw : width % 4 = 0) (hh : height % 4 = 0) :
    (∀ img : List Nat, img.length = width * height →
      ∃ out, compress img width height = some out ∧
        out.length = (width / 4) * (height / 4) * 6) ∧
    (∀ c : List Nat, (width / 4) * (height / 4) * 6 ≤ c.length →
      ∃ out, decompress c width height = some out ∧
        out.length = width * height) :=
  ⟨fun img hlen => compress_shape img width height hw hh hlen,
   fun c hlen => decompress_shape c width height hw hh hlen⟩

/-- Witness for C8 at an 8x4 image (two blocks). -/
theorem codec_shape_witness :
    (∃ out, compress (List.replicate 32 5) 8 4 = some out ∧
      out.length = 8 / 4 * (4 / 4) * 6) ∧
    (∃ out, decompress (List.replicate 12 0) 8 4 = some out ∧
      out.length = 8 * 4) :=
  ⟨(codec_shape 8 4 (by decide) (by decide)).1 (List.replicate 32 5) (by decide),
   (codec_shape 8 4 (by decide) (by decide)).2 (List.replicate 12 0) (by decide)⟩

/-- C9, counterexample: on width 5 (not a multiple of 4) the encoder does not
report a typed error value — block extraction slices out of bounds, a Rust
panic, modelled as `none`. -/
theorem compress_width5_counterexample :
    compress (List.replicate 20 0) 5 4 = none := by decide

/-- C9, amended: `compress` performs no dimension validation; on a 5x4 image
it panics with an out-of-bounds slice while extracting the second block
(modelled as `none`) and produces no output; no `InvalidDimensions` typed
error exists in the code. -/
theorem compress_width5_none (img : List Nat) (h : img.length = 20) :
    compress img 5 4 = none := by
  have hsel : select_block img 5 4 0 = none := by
    unfold select_block slice
    rw [if_pos ⟨by omega, by omega⟩, if_pos ⟨by omega, by omega⟩,
      if_pos ⟨by omega, by omega⟩, if_neg (by omega)]
    rfl
  have hr1 : List.range ((4 + 3) / 4) = [0] := rfl
  have hr2 : List.range ((5 + 3) / 4) = [0, 1] := rfl
  unfold compress
  rw [hr1, hr2]
  simp only [List.foldlM_cons, List.foldlM_nil, Nat.mul_zero, Nat.mul_one]
  cases hsel0 : select_block img 5 0 0 <;> simp [hsel0, hsel]

/-- Witness for C9's amended theorem at a constant 5x4 image. -/
theorem compress_width5_none_witness :
    compress (List.replicate 20 7) 5 4 = none :=
  compress_width5_none (List.replicate 20 7) (by decide)

/-- C10: for byte endpoints the three interpolated palette quotients are at
most 255, so the `as u8` narrowing never wraps and entries 2, 3 and 6 of the
options table equal their exact truncated-division values. -/
theorem options_table_no_wrap (val0 val1 : Nat) (h0 : val0 < 256) (h1 : val1 < 256)
    (flip : Bool) :
    (2 * val0 + val1) / 3 ≤ 255 ∧ (val0 + 2 * val1) / 3 ≤ 255 ∧
    (val0 + val1) / 2 ≤ 255 ∧
    (get_options_table val0 val1 flip).getD 2 0 = (2 * val0 + val1) / 3 ∧
    (get_options_table val0 val1 flip).getD 3 0 = (val0 + 2 * val1) / 3 ∧
    (get_options_table val0 val1 flip).getD 6 0 = (val0 + val1) / 2 := by
  refine ⟨by omega, by omega, by omega, ?_, ?_, ?_⟩ <;>
    simp [get_options_table] <;> omega

/-- Witness for C10 at the extreme endpoints `(255, 255)`. -/
theorem options_table_no_wrap_witness :
    (get_options_table 255 255 false).getD 2 0 = (2 * 255 + 255) / 3 :=
  (options_table_no_wrap 255 255 (by decide) (by decide) false).2.2.2.1

end TinyDxt
